import Mathlib

/-!
Verification of the go-money library: fixed-point money arithmetic,
fair splitting/allocation, decimal parsing and formatting, currency-safe
comparison, and the JSON decoding shim.

Amounts are modelled as unbounded integers (`Int`): the spec treats
machine overflow as out of scope.  Strings are modelled as lists of
characters.  Functions of `money.go` are translated directly from the
source; the arithmetic calculator, the currency record and the formatter
live in files absent from the sources (only the spec and their tests
describe them) and are modelled from the spec, as marked in their doc
comments.
-/

namespace GoMoney

/-! ## Arithmetic calculator (spec §4.3) -/

/-- Modelled from the spec: `calculator.absolute` (calculator.go is absent).
"standard sign operation". -/
def absolute (a : Int) : Int := if a < 0 then -a else a

/-- Modelled from the spec: `calculator.negative` (calculator.go is absent). -/
def negative (a : Int) : Int := -a

/-- Modelled from the spec: `calculator.add` (calculator.go is absent). -/
def add (a b : Int) : Int := a + b

/-- Modelled from the spec: `calculator.subtract` (calculator.go is absent). -/
def subtract (a b : Int) : Int := a - b

/-- Modelled from the spec: `calculator.multiply` (calculator.go is absent). -/
def multiply (a k : Int) : Int := a * k

/-- Modelled from the spec: `calculator.divide` (calculator.go is absent):
truncating (toward zero) integer division. -/
def divide (a n : Int) : Int := a.tdiv n

/-- Modelled from the spec: `calculator.modulus` (calculator.go is absent):
remainder of truncating division, matching the sign of the dividend. -/
def modulus (a n : Int) : Int := a.tmod n

/-- Modelled from the spec: `calculator.allocate` (calculator.go is absent):
a party's raw share for ratio `r` out of ratio sum `s` is the truncating
quotient of `a * r` by `s`; when the ratio sum is zero every party
receives `0`. -/
def allocateShare (a : Int) (r s : Nat) : Int :=
  if s = 0 then 0 else (a * (r : Int)).tdiv (s : Int)

/-- Modelled from the spec: `calculator.round` (calculator.go is absent):
round to the nearest multiple of `10 ^ e`, ties broken away from zero.
Computed on the magnitude: bump the remainder class up when it reaches
half of the modulus, truncate, and restore the sign. -/
def round (a : Int) (e : Nat) : Int :=
  if a = 0 then 0
  else
    let exp : Int := (10 : Int) ^ e
    let absam : Int := (a.natAbs : Int)
    let m : Int := absam % exp
    let bumped : Int := if exp ≤ 2 * m then absam + exp else absam
    let res : Int := bumped / exp * exp
    if a < 0 then -res else res

/-! ## Split and Allocate (money.go `Split`, `Allocate`) -/

/-- The leftover-distribution loop shared by `Split` and `Allocate`
(money.go lines 320-323 and 370-373): add `v` to each of the first `k`
shares.  The Go loop indexes `ms[p]` for `p < k`; an index past the end
of the slice (a Go panic) is modelled as `none`. -/
def addToFirst (v : Int) : Nat → List Int → Option (List Int)
  | 0, l => some l
  | _ + 1, [] => none
  | k + 1, x :: xs => (addToFirst v k xs).map (fun r => (x + v) :: r)

/-- The effect of the leftover loop when it stays in bounds: the first
`k` entries increased by `v`. -/
def bump (v : Int) : Nat → List Int → List Int
  | 0, l => l
  | _ + 1, [] => []
  | k + 1, x :: xs => (x + v) :: bump v k xs

/-- `Money.Split` (money.go lines 300-326), at the level of amounts:
`n` equal truncated shares, then the leftover distributed one unit at a
time (sign following the amount) to the first shares.  `none` models
both the `n ≤ 0` error and an out-of-bounds panic of the loop. -/
def SplitAmounts (amount : Int) (n : Int) : Option (List Int) :=
  if n ≤ 0 then none
  else
    let a := divide amount n
    let ms := List.replicate n.toNat a
    let l := (modulus amount n).natAbs
    let v : Int := if amount < 0 then -1 else 1
    addToFirst v l ms

/-- Sum of the ratios as computed by `Money.Allocate` (money.go lines
337-343): the ratios, already checked non-negative, accumulated as
unsigned integers. -/
def ratioSum (rs : List Int) : Nat := (rs.map Int.toNat).sum

/-- The raw (pre-leftover) shares of `Money.Allocate` (money.go lines
345-355). -/
def rawShares (amount : Int) (rs : List Int) : List Int :=
  rs.map (fun r => allocateShare amount r.toNat (ratioSum rs))

/-- `Money.Allocate` (money.go lines 331-376), at the level of amounts:
raw truncated proportional shares, early return when the ratio sum is
zero, otherwise the leftover `amount - total` distributed in `±1` steps
to the first shares.  `none` models the empty-ratio error, the
negative-ratio error, and an out-of-bounds panic of the loop. -/
def AllocateAmounts (amount : Int) (rs : List Int) : Option (List Int) :=
  if rs.isEmpty then none
  else if rs.any (fun r => r < 0) then none
  else
    let ms := rawShares amount rs
    if ratioSum rs = 0 then some ms
    else
      let lo := amount - ms.sum
      let sub : Int := if lo < 0 then -1 else 1
      addToFirst sub lo.natAbs ms

/-! ## Currency records and Money values -/

/-- Modelled from the spec: the currency record of the registry
(currency.go is absent); only the fields the verified operations read
are kept: the code, the count of fraction digits, and the decimal
separator (a single character for every registered currency). -/
structure CurrencyRec where
  code : String
  fraction : Nat
  decimal : Char
deriving DecidableEq, Repr

/-- `Money` (money.go lines 83-86): an amount in minor units coupled
with its currency.  Go's nil currency pointer of the zero value
`Money{}` is modelled as the record with the empty code. -/
structure Money where
  amount : Int
  currency : CurrencyRec
deriving DecidableEq, Repr

/-- The error outcomes of money.go, one constructor per distinct error. -/
inductive MoneyError where
  | currencyMismatch
  | invalidJSON
  | invalidCurrency
  | invalidAmount
  | invalidSplit
  | noRatios
  | negRatio
deriving DecidableEq, Repr

/-- `Money.SameCurrency` via `currency.equals` (money.go line 176;
currency.go is absent, the spec requires comparison by currency code). -/
def Money.SameCurrency (m om : Money) : Bool :=
  m.currency.code == om.currency.code

/-- `Money.compare` (money.go lines 188-197). -/
def Money.compareAmt (m om : Money) : Int :=
  if m.amount > om.amount then 1
  else if m.amount < om.amount then -1
  else 0

/-- `Money.Equals` (money.go lines 200-206). -/
def Money.Equals (m om : Money) : Except MoneyError Bool :=
  if m.SameCurrency om then .ok (m.compareAmt om = 0) else .error .currencyMismatch

/-- `Money.GreaterThan` (money.go lines 209-215). -/
def Money.GreaterThan (m om : Money) : Except MoneyError Bool :=
  if m.SameCurrency om then .ok (m.compareAmt om = 1) else .error .currencyMismatch

/-- `Money.GreaterThanOrEqual` (money.go lines 218-224). -/
def Money.GreaterThanOrEqual (m om : Money) : Except MoneyError Bool :=
  if m.SameCurrency om then .ok (0 ≤ m.compareAmt om) else .error .currencyMismatch

/-- `Money.LessThan` (money.go lines 227-233). -/
def Money.LessThan (m om : Money) : Except MoneyError Bool :=
  if m.SameCurrency om then .ok (m.compareAmt om = -1) else .error .currencyMismatch

/-- `Money.LessThanOrEqual` (money.go lines 236-242). -/
def Money.LessThanOrEqual (m om : Money) : Except MoneyError Bool :=
  if m.SameCurrency om then .ok (m.compareAmt om ≤ 0) else .error .currencyMismatch

/-- `Money.Compare` (money.go lines 407-413): on a currency mismatch it
returns the receiver's own amount alongside the error. -/
def Money.Compare (m om : Money) : Int × Option MoneyError :=
  if m.SameCurrency om then (m.compareAmt om, none)
  else (m.amount, some .currencyMismatch)

/-- `Money.Absolute` (money.go lines 260-262). -/
def Money.Absolute (m : Money) : Money :=
  { amount := absolute m.amount, currency := m.currency }

/-- `Money.Negative` (money.go lines 265-267). -/
def Money.Negative (m : Money) : Money :=
  { amount := negative m.amount, currency := m.currency }

/-- `Money.Add` (money.go lines 270-276). -/
def Money.Add (m om : Money) : Except MoneyError Money :=
  if m.SameCurrency om then
    .ok { amount := add m.amount om.amount, currency := m.currency }
  else .error .currencyMismatch

/-- `Money.Subtract` (money.go lines 279-285). -/
def Money.Subtract (m om : Money) : Except MoneyError Money :=
  if m.SameCurrency om then
    .ok { amount := subtract m.amount om.amount, currency := m.currency }
  else .error .currencyMismatch

/-- `Money.Multiply` (money.go lines 288-290). -/
def Money.Multiply (m : Money) (mul : Int) : Money :=
  { amount := multiply m.amount mul, currency := m.currency }

/-- `Money.Round` (money.go lines 293-295). -/
def Money.Round (m : Money) : Money :=
  { amount := round m.amount m.currency.fraction, currency := m.currency }

/-- `Money.Split` (money.go lines 300-326): each share carries the
receiver's currency. -/
def Money.Split (m : Money) (n : Int) : Option (List Money) :=
  (SplitAmounts m.amount n).map
    (fun l => l.map (fun a => { amount := a, currency := m.currency }))

/-- `Money.Allocate` (money.go lines 331-376): each share carries the
receiver's currency. -/
def Money.Allocate (m : Money) (rs : List Int) : Option (List Money) :=
  (AllocateAmounts m.amount rs).map
    (fun l => l.map (fun a => { amount := a, currency := m.currency }))

/-! ## Decimal string parsing (money.go `NewFromString`) -/

/-- ASCII decimal digit test. -/
def isDigitCh (c : Char) : Bool := 48 ≤ c.toNat && c.toNat ≤ 57

/-- Value of a list of decimal digit characters, most significant first. -/
def digitsVal (l : List Char) : Nat :=
  l.foldl (fun a c => 10 * a + (c.toNat - 48)) 0

/-- The digit run accepted by `strconv.ParseInt`: non-empty, decimal
digits only. -/
def parseDigits (l : List Char) : Option Nat :=
  if l.isEmpty then none
  else if l.all isDigitCh then some (digitsVal l) else none

/-- `strconv.ParseInt(s, 10, 64)` as called by `NewFromString`
(money.go line 145): an optional leading sign followed by at least one
decimal digit.  The `int64` range check is omitted: amounts are
modelled as unbounded integers, the spec placing machine overflow out
of scope. -/
def parseIntStr (l : List Char) : Option Int :=
  match l with
  | [] => none
  | c :: rest =>
    if c = '-' then (parseDigits rest).map (fun n => -(n : Int))
    else if c = '+' then (parseDigits rest).map (fun n => (n : Int))
    else (parseDigits (c :: rest)).map (fun n => (n : Int))

/-- Index of the first occurrence of a character, `strings.Index`
restricted to the one-character separators of the registered
currencies. -/
def firstIdx (c : Char) : List Char → Option Nat
  | [] => none
  | x :: xs => if x = c then some 0 else (firstIdx c xs).map (fun i => i + 1)

/-- The parsing core of `NewFromString` (money.go lines 135-152), for a
currency with decimal separator `sep` and `fraction` minor-unit digits:
locate the separator, clamp the count of supplied fraction digits to
`fraction`, concatenate the integer part with the kept fraction digits,
parse as a signed integer and pad with trailing zeros. -/
def parseAmount (s : List Char) (sep : Char) (fraction : Nat) : Option Int :=
  match firstIdx sep s with
  | none => (parseIntStr s).map (fun p => p * (10 : Int) ^ fraction)
  | some i =>
    let decimals := min (s.length - i - 1) fraction
    let toParse := s.take i ++ (s.drop (i + 1)).take decimals
    (parseIntStr toParse).map (fun p => p * (10 : Int) ^ (fraction - decimals))

/-- A valid signed decimal integer in the sense of the spec's parser
contract: an optional leading sign followed by at least one digit. -/
def isValidSignedInt : List Char → Bool
  | [] => false
  | c :: rest =>
    if c = '-' ∨ c = '+' then !rest.isEmpty && rest.all isDigitCh
    else (c :: rest).all isDigitCh

/-- Numeric value of a valid signed decimal integer string. -/
def signedVal : List Char → Int
  | [] => 0
  | c :: rest =>
    if c = '-' then -(digitsVal rest : Int)
    else if c = '+' then (digitsVal rest : Int)
    else (digitsVal (c :: rest) : Int)

/-- The parser algorithm in the spec's words (spec §4.2), written for
comparison against `parseAmount`: the substring after the separator
supplies fraction digits, truncated to at most `fraction` digits;
the integer part and the kept fraction digits are concatenated, parsed
as a signed integer, then multiplied by `10 ^ (fraction - supplied)`;
parsing fails exactly when the concatenation is not a valid signed
integer. -/
def specParse (s : List Char) (sep : Char) (fraction : Nat) : Option Int :=
  match firstIdx sep s with
  | none =>
    if isValidSignedInt s then some (signedVal s * (10 : Int) ^ fraction) else none
  | some i =>
    let intPart := s.take i
    let afterSep := s.drop (i + 1)
    let supplied := min afterSep.length fraction
    let concatenated := intPart ++ afterSep.take supplied
    if isValidSignedInt concatenated then
      some (signedVal concatenated * (10 : Int) ^ (fraction - supplied))
    else none

/-- The portion of the input that `parseAmount` actually consumes: the
whole string when the separator is absent, otherwise the integer part
before the first separator together with the at-most-`fraction` kept
characters after it — everything later is discarded by the truncation
of money.go line 142. -/
def consumedPortion (s : List Char) (sep : Char) (fraction : Nat) : List Char :=
  match firstIdx sep s with
  | none => s
  | some i => s.take i ++ (s.drop (i + 1)).take (min (s.length - i - 1) fraction)

/-- Go's `Money{}` zero value carries a nil currency pointer; it is
modelled as the record with the empty code. -/
def emptyCurrency : CurrencyRec := { code := "", fraction := 0, decimal := '.' }

/-- `NewFromString` (money.go lines 127-158), with the currency
registry (currency.go is absent) supplied as a lookup function per the
spec's registry interface. -/
def NewFromString (lookup : String → Option CurrencyRec)
    (amount : List Char) (currencyCode : String) : Except MoneyError Money :=
  match lookup currencyCode with
  | none => .error .invalidCurrency
  | some c =>
    match parseAmount amount c.decimal c.fraction with
    | none => .error .invalidAmount
    | some v => .ok { amount := v, currency := c }

/-! ## JSON decoding (money.go `unmarshalJSON`) -/

/-- A decoded JSON field value, as far as `unmarshalJSON`'s type switch
distinguishes them; numbers are kept as integers, which suffices for
the string-versus-non-string checks. -/
inductive JsonValue where
  | jstr (s : String)
  | jnum (q : Int)
  | jbool (b : Bool)
  | jnull
deriving DecidableEq, Repr

/-- `unmarshalJSON` (money.go lines 31-67) on an already-decoded
payload: each of the `amount` and `currency` fields is either absent
(`none`) or holds a JSON value.  A present non-string field is the
invalid-JSON error; an absent field defaults to the empty string; when
both strings are empty the result is the zero `Money`; otherwise the
pair goes through `NewFromString`. -/
def unmarshalJSON (lookup : String → Option CurrencyRec)
    (amountField currencyField : Option JsonValue) : Except MoneyError Money :=
  let amount? : Option String :=
    match amountField with
    | none => some ""
    | some (.jstr s) => some s
    | some _ => none
  let currency? : Option String :=
    match currencyField with
    | none => some ""
    | some (.jstr s) => some s
    | some _ => none
  match amount?, currency? with
  | none, _ => .error .invalidJSON
  | some _, none => .error .invalidJSON
  | some a, some c =>
    if a = "" ∧ c = "" then .ok { amount := 0, currency := emptyCurrency }
    else NewFromString lookup a.data c

/-! ## Formatter (spec §4.4; formatter.go is absent) -/

/-- Modelled from the spec: the formatter's construction parameters
(`NewFormatter(fraction, decimal, thousand, grapheme, template)`); the
separators are single characters for every registered currency, an
empty thousand separator being `none`. -/
structure Formatter where
  fraction : Nat
  decimal : Char
  thousand : Option Char
  grapheme : List Char
  template : List Char
deriving DecidableEq, Repr

/-- The character of a decimal digit. -/
def digitChar (d : Nat) : Char :=
  match d with
  | 0 => '0' | 1 => '1' | 2 => '2' | 3 => '3' | 4 => '4'
  | 5 => '5' | 6 => '6' | 7 => '7' | 8 => '8' | _ => '9'

/-- Decimal digits of a natural number, least significant first, with
explicit fuel so that concrete values reduce. -/
def digitsRevAux : Nat → Nat → List Char
  | _, 0 => []
  | 0, _ + 1 => []
  | fuel + 1, n + 1 => digitChar ((n + 1) % 10) :: digitsRevAux fuel ((n + 1) / 10)

/-- Decimal digit characters of a natural number, most significant
first; empty for `0`. -/
def natToDigits (n : Nat) : List Char := (digitsRevAux n n).reverse

/-- Left-pad a list to length `k` with copies of `c`. -/
def padLeft (k : Nat) (c : Char) (l : List Char) : List Char :=
  List.replicate (k - l.length) c ++ l

/-- Modelled from the spec: thousand grouping on a reversed digit
list — after every three digits (counted from the right of the
original) insert the separator. -/
def groupRev (t : Char) : List Char → List Char
  | a :: b :: c :: d :: rest => a :: b :: c :: t :: groupRev t (d :: rest)
  | l => l

/-- Modelled from the spec: insert the thousand separator into an
integer-part digit string every three digits counting from the right;
skipped when the currency has no thousand separator. -/
def group (t : Option Char) (l : List Char) : List Char :=
  match t with
  | none => l
  | some c => (groupRev c l.reverse).reverse

/-- Modelled from the spec: the shared numeric rendering of §4.4 — the
digits of the magnitude, left-zero-padded to at least `fraction + 1`
characters, split into integer and fraction parts, the integer part
grouped, the parts joined by the decimal separator when `fraction > 0`. -/
def numericRender (f : Formatter) (n : Nat) : List Char :=
  let ds := padLeft (f.fraction + 1) '0' (natToDigits n)
  if f.fraction = 0 then group f.thousand ds
  else
    group f.thousand (ds.take (ds.length - f.fraction))
      ++ f.decimal :: ds.drop (ds.length - f.fraction)

/-- Modelled from the spec: `formatAmount` of §4.4 (formatter.go is
absent).  The amount placeholder of the two-token template is replaced
by the numeric rendering, the grapheme placeholder is removed and the
spacing left by its removal trimmed, and the sign is prepended — for
the library's templates the result is the sign followed by the numeric
rendering, which is how it is modelled here (the formatter tests
confirm this shape for every template). -/
def formatAmount (f : Formatter) (a : Int) : List Char :=
  (if a < 0 then ['-'] else []) ++ numericRender f a.natAbs

/-! ## Lemmas on the leftover-distribution loop -/

theorem addToFirst_eq_bump (v : Int) :
    ∀ (k : Nat) (l : List Int), k ≤ l.length → addToFirst v k l = some (bump v k l) := by
  intro k
  induction k with
  | zero => intro l _; rfl
  | succ k ih =>
    intro l hl
    cases l with
    | nil => simp at hl
    | cons x xs =>
      simp only [addToFirst, bump]
      rw [ih xs (by simpa using hl)]
      rfl

theorem bump_length (v : Int) : ∀ (k : Nat) (l : List Int), (bump v k l).length = l.length := by
  intro k
  induction k with
  | zero => intro l; rfl
  | succ k ih =>
    intro l
    cases l with
    | nil => rfl
    | cons x xs => simp [bump, ih]

theorem bump_sum (v : Int) :
    ∀ (k : Nat) (l : List Int), k ≤ l.length → (bump v k l).sum = l.sum + k * v := by
  intro k
  induction k with
  | zero => intro l _; simp [bump]
  | succ k ih =>
    intro l hl
    cases l with
    | nil => simp at hl
    | cons x xs =>
      have := ih xs (by simpa using hl)
      simp only [bump, List.sum_cons, this]
      push_cast
      ring

theorem bump_get (v : Int) :
    ∀ (k : Nat) (l : List Int) (i : Nat) (h : i < (bump v k l).length) (h2 : i < l.length),
      (bump v k l).get ⟨i, h⟩ = l.get ⟨i, h2⟩ + (if i < k then v else 0) := by
  intro k
  induction k with
  | zero => intro l i h h2; simp [bump]
  | succ k ih =>
    intro l i h h2
    cases l with
    | nil => simp at h2
    | cons x xs =>
      cases i with
      | zero => simp [bump]
      | succ i =>
        have hlen : i < (bump v k xs).length := by
          simpa [bump] using h
        have hlen2 : i < xs.length := by simpa using h2
        simpa [bump] using ih xs i hlen hlen2

/-! ## Lemmas on truncating division and remainder -/

theorem natAbs_tmod (a b : Int) : (a.tmod b).natAbs = a.natAbs % b.natAbs := by
  cases a <;> cases b <;>
    simp only [Int.tmod, Int.natAbs_neg, Int.natAbs_ofNat] <;> rfl

theorem tmod_nonpos_of_nonpos (b : Int) {a : Int} (h : a ≤ 0) : a.tmod b ≤ 0 := by
  cases a with
  | ofNat n =>
    have h2 : (n : Int) ≤ 0 := h
    have hn : n = 0 := by omega
    subst hn
    simp
  | negSucc m =>
    cases b with
    | ofNat n =>
      show -(Int.ofNat ((m + 1) % n)) ≤ 0
      have : (0 : Int) ≤ Int.ofNat ((m + 1) % n) := Int.ofNat_nonneg _
      omega
    | negSucc k =>
      show -(Int.ofNat ((m + 1) % (k + 1))) ≤ 0
      have : (0 : Int) ≤ Int.ofNat ((m + 1) % (k + 1)) := Int.ofNat_nonneg _
      omega

theorem sign_unit_mul_natAbs (x : Int) :
    (if x < 0 then (-1 : Int) else 1) * (x.natAbs : Int) = x := by
  by_cases h : x < 0
  · rw [if_pos h]; omega
  · rw [if_neg h]; omega

theorem tmod_sign_unit (a n : Int) :
    (if a < 0 then (-1 : Int) else 1) * ((a.tmod n).natAbs : Int) = a.tmod n := by
  by_cases h : a < 0
  · have hle : a.tmod n ≤ 0 := tmod_nonpos_of_nonpos n (le_of_lt h)
    rw [if_pos h]
    omega
  · have hge : 0 ≤ a.tmod n := Int.tmod_nonneg n (by omega)
    rw [if_neg h]
    omega

theorem natAbs_tmod_lt (a : Int) {b : Int} (hb : b ≠ 0) :
    (a.tmod b).natAbs < b.natAbs := by
  rw [natAbs_tmod]
  exact Nat.mod_lt _ (by omega)

/-! ## Lemmas on ratio sums and raw allocation shares -/

theorem ratioSum_cast (rs : List Int) (hnn : ∀ r ∈ rs, 0 ≤ r) :
    ((ratioSum rs : Nat) : Int) = rs.sum := by
  induction rs with
  | nil => simp [ratioSum]
  | cons r rest ih =>
    have hr : 0 ≤ r := hnn r (by simp)
    have hrest : ((ratioSum rest : Nat) : Int) = rest.sum :=
      ih (fun x hx => hnn x (by simp [hx]))
    have hunfold : ratioSum (r :: rest) = r.toNat + ratioSum rest := by
      simp [ratioSum]
    rw [hunfold, Nat.cast_add, Int.toNat_of_nonneg hr, hrest, List.sum_cons]

theorem allocShare_err_lt (a r : Int) (S : Nat) (hS : S ≠ 0) (hr : 0 ≤ r) :
    (a * r - (S : Int) * allocateShare a r.toNat S).natAbs < S := by
  have hcast : ((r.toNat : Nat) : Int) = r := Int.toNat_of_nonneg hr
  have : a * r - (S : Int) * allocateShare a r.toNat S = (a * r).tmod (S : Int) := by
    rw [Int.tmod_def]
    simp [allocateShare, hS, hcast]
  rw [this]
  have := natAbs_tmod_lt (a * r) (b := (S : Int)) (by exact_mod_cast hS)
  simpa using this

theorem mapShares_err_le (a : Int) (S : Nat) (hS : S ≠ 0) :
    ∀ (l : List Int), (∀ r ∈ l, 0 ≤ r) →
      (a * l.sum - (S : Int) * (l.map (fun r => allocateShare a r.toNat S)).sum).natAbs
        ≤ l.length * (S - 1) := by
  intro l
  induction l with
  | nil => intro _; simp
  | cons r rest ih =>
    intro hnn
    have hr : 0 ≤ r := hnn r (by simp)
    have hrest := ih (fun x hx => hnn x (by simp [hx]))
    have hhead := allocShare_err_lt a r S hS hr
    have hsplit :
        a * (r :: rest).sum
          - (S : Int) * ((r :: rest).map (fun x => allocateShare a x.toNat S)).sum
        = (a * r - (S : Int) * allocateShare a r.toNat S)
          + (a * rest.sum - (S : Int) * (rest.map (fun x => allocateShare a x.toNat S)).sum) := by
      simp only [List.map_cons, List.sum_cons]
      ring
    rw [hsplit]
    calc ((a * r - (S : Int) * allocateShare a r.toNat S)
            + (a * rest.sum - (S : Int) * (rest.map (fun x => allocateShare a x.toNat S)).sum)).natAbs
        ≤ (a * r - (S : Int) * allocateShare a r.toNat S).natAbs
            + (a * rest.sum - (S : Int) * (rest.map (fun x => allocateShare a x.toNat S)).sum).natAbs :=
          Int.natAbs_add_le _ _
      _ ≤ (S - 1) + rest.length * (S - 1) := by
          have : (a * r - (S : Int) * allocateShare a r.toNat S).natAbs ≤ S - 1 := by omega
          exact Nat.add_le_add this hrest
      _ = (r :: rest).length * (S - 1) := by
          simp [List.length_cons]
          ring

theorem leftover_lt (a : Int) (rs : List Int) (hne : rs ≠ [])
    (hnn : ∀ r ∈ rs, 0 ≤ r) (hS : 0 < ratioSum rs) :
    (a - (rawShares a rs).sum).natAbs < rs.length := by
  set S := ratioSum rs with hSdef
  have hS0 : S ≠ 0 := by omega
  have hbound := mapShares_err_le a S hS0 rs hnn
  have hsum : rs.sum = (S : Int) := by rw [← ratioSum_cast rs hnn]
  rw [hsum] at hbound
  have hfact : a * (S : Int) - (S : Int) * (rawShares a rs).sum
      = (a - (rawShares a rs).sum) * (S : Int) := by ring
  rw [rawShares] at *
  rw [hfact] at hbound
  rw [Int.natAbs_mul] at hbound
  have hSabs : ((S : Int)).natAbs = S := Int.natAbs_ofNat S
  rw [hSabs] at hbound
  have hk : 0 < rs.length := by
    cases rs with
    | nil => exact absurd rfl hne
    | cons x xs => simp
  have hlt : (a - (List.map (fun r => allocateShare a r.toNat S) rs).sum).natAbs * S
      < rs.length * S := by
    calc (a - (List.map (fun r => allocateShare a r.toNat S) rs).sum).natAbs * S
        ≤ rs.length * (S - 1) := hbound
      _ < rs.length * S := mul_lt_mul_of_pos_left (by omega) hk
  exact Nat.lt_of_mul_lt_mul_right hlt

/-! ## Normal forms of Split and Allocate -/

theorem splitAmounts_eq (a : Int) {n : Int} (hn : 0 < n) :
    SplitAmounts a n =
      some (bump (if a < 0 then -1 else 1) (a.tmod n).natAbs
        (List.replicate n.toNat (a.tdiv n))) := by
  have hle : (a.tmod n).natAbs ≤ (List.replicate n.toNat (a.tdiv n)).length := by
    rw [List.length_replicate]
    have hlt := natAbs_tmod_lt a (b := n) (by omega)
    omega
  simp only [SplitAmounts, divide, modulus, if_neg (by omega : ¬ n ≤ 0)]
  exact addToFirst_eq_bump _ _ _ hle

theorem allocate_eq_of_pos (a : Int) (rs : List Int) (hne : rs ≠ [])
    (hnn : ∀ r ∈ rs, 0 ≤ r) (hS : 0 < ratioSum rs) :
    AllocateAmounts a rs =
      some (bump (if a - (rawShares a rs).sum < 0 then (-1 : Int) else 1)
        (a - (rawShares a rs).sum).natAbs (rawShares a rs)) := by
  have hlt := leftover_lt a rs hne hnn hS
  have hisEmpty : rs.isEmpty = false := by
    cases rs with
    | nil => exact absurd rfl hne
    | cons x xs => rfl
  have hany : rs.any (fun r => decide (r < 0)) = false := by
    simp only [List.any_eq_false]
    intro x hx
    simpa using not_lt.mpr (hnn x hx)
  have hlen : (a - (rawShares a rs).sum).natAbs ≤ (rawShares a rs).length := by
    rw [rawShares, List.length_map]
    rw [rawShares] at hlt
    omega
  simp only [AllocateAmounts, hisEmpty, hany, Bool.false_eq_true, if_false,
    if_neg (by omega : ¬ ratioSum rs = 0)]
  exact addToFirst_eq_bump _ _ _ hlen

theorem allocate_eq_of_zero (a : Int) (rs : List Int) (hne : rs ≠ [])
    (hnn : ∀ r ∈ rs, 0 ≤ r) (hS : ratioSum rs = 0) :
    AllocateAmounts a rs = some (List.replicate rs.length 0) := by
  have hisEmpty : rs.isEmpty = false := by
    cases rs with
    | nil => exact absurd rfl hne
    | cons x xs => rfl
  have hany : rs.any (fun r => decide (r < 0)) = false := by
    simp only [List.any_eq_false]
    intro x hx
    simpa using not_lt.mpr (hnn x hx)
  have hraw : rawShares a rs = List.replicate rs.length 0 := by
    rw [rawShares, hS]
    have : (fun r : Int => allocateShare a r.toNat 0) = fun _ : Int => (0 : Int) := by
      funext r
      simp [allocateShare]
    rw [this, List.map_const']
  simp only [AllocateAmounts, hisEmpty, hany, Bool.false_eq_true, if_false, hS,
    if_true, eq_self_iff_true, hraw]

/-! ## Claim theorems: conservation, fairness, loop safety -/

/-- **C1** (amended).  Conservation: for every amount `a` and every
`n > 0` the shares of `split(a, n)` sum exactly to `a`; for every valid
ratio list whose ratio sum is positive the shares of
`allocate(a, ratios)` sum exactly to `a`; when every ratio is zero,
every party receives `0` (so the shares sum to `0`, not to `a`). -/
theorem conservation_split_allocate :
    (∀ (a n : Int), 0 < n → ∃ ms, SplitAmounts a n = some ms ∧ ms.sum = a)
    ∧ (∀ (a : Int) (rs : List Int), rs ≠ [] → (∀ r ∈ rs, 0 ≤ r) → 0 < ratioSum rs →
        ∃ ms, AllocateAmounts a rs = some ms ∧ ms.sum = a)
    ∧ (∀ (a : Int) (rs : List Int), rs ≠ [] → (∀ r ∈ rs, r = 0) →
        AllocateAmounts a rs = some (List.replicate rs.length 0)) := by
  refine ⟨?_, ?_, ?_⟩
  · intro a n hn
    refine ⟨_, splitAmounts_eq a hn, ?_⟩
    have hle : (a.tmod n).natAbs ≤ (List.replicate n.toNat (a.tdiv n)).length := by
      rw [List.length_replicate]
      have hlt := natAbs_tmod_lt a (b := n) (by omega)
      omega
    rw [bump_sum _ _ _ hle, List.sum_replicate, nsmul_eq_mul]
    have hcast : ((n.toNat : Nat) : Int) = n := Int.toNat_of_nonneg (by omega)
    rw [hcast, mul_comm ((a.tmod n).natAbs : Int), tmod_sign_unit]
    exact Int.tdiv_add_tmod a n
  · intro a rs hne hnn hS
    refine ⟨_, allocate_eq_of_pos a rs hne hnn hS, ?_⟩
    have hlt := leftover_lt a rs hne hnn hS
    have hle : (a - (rawShares a rs).sum).natAbs ≤ (rawShares a rs).length := by
      rw [rawShares, List.length_map]
      rw [rawShares] at hlt
      omega
    rw [bump_sum _ _ _ hle, mul_comm ((a - (rawShares a rs).sum).natAbs : Int),
      sign_unit_mul_natAbs]
    ring
  · intro a rs hne hzero
    have hnn : ∀ r ∈ rs, 0 ≤ r := fun r hr => (hzero r hr).ge
    have hS : ratioSum rs = 0 := by
      apply List.sum_eq_zero
      intro x hx
      rcases List.mem_map.mp hx with ⟨r, hr, hrx⟩
      rw [← hrx, hzero r hr]
      rfl
    exact allocate_eq_of_zero a rs hne hnn hS

/-- **C1**, counterexample to the claim as stated: allocating `10` over
the all-zero ratio list `[0, 0]` succeeds and returns `[0, 0]`, whose
sum `0` differs from the original amount `10` — conservation does not
extend to the all-zero-ratio case. -/
theorem conservation_allocate_counterexample :
    AllocateAmounts 10 [0, 0] = some [0, 0] ∧ List.sum [(0 : Int), 0] ≠ 10 := by
  constructor
  · decide
  · decide

/-- **C2**.  Split fairness: for every amount `a` and every `n > 0`,
`split(a, n)` succeeds with `n` shares; the share at index `i` equals
the truncating quotient `a div n` plus one extra unit — of the sign of
`a` — exactly when `i < |a mod n|` (so the extra units go to the first
`|a mod n|` shares in order); consequently any two shares differ by at
most `1` minor unit; and `split(100, 3) = [34, 33, 33]`,
`split(-101, 4) = [-26, -25, -25, -25]`. -/
theorem split_fairness :
    (∀ (a n : Int), 0 < n → ∃ ms, SplitAmounts a n = some ms ∧
      ms.length = n.toNat ∧
      (∀ (i : Nat) (h : i < ms.length),
        ms.get ⟨i, h⟩ = a.tdiv n
          + (if i < (a.tmod n).natAbs then (if a < 0 then (-1 : Int) else 1) else 0)) ∧
      (∀ (i j : Nat) (hi : i < ms.length) (hj : j < ms.length),
        (ms.get ⟨i, hi⟩ - ms.get ⟨j, hj⟩).natAbs ≤ 1))
    ∧ SplitAmounts 100 3 = some [34, 33, 33]
    ∧ SplitAmounts (-101) 4 = some [-26, -25, -25, -25] := by
  refine ⟨?_, by decide, by decide⟩
  intro a n hn
  refine ⟨_, splitAmounts_eq a hn, ?_, ?_, ?_⟩
  · rw [bump_length, List.length_replicate]
  · intro i h
    have h2 : i < (List.replicate n.toNat (a.tdiv n)).length := by
      rw [← bump_length (if a < 0 then (-1 : Int) else 1) (a.tmod n).natAbs]
      exact h
    rw [bump_get _ _ _ _ h h2, List.get_replicate]
  · intro i j hi hj
    have hi2 : i < (List.replicate n.toNat (a.tdiv n)).length := by
      rw [← bump_length (if a < 0 then (-1 : Int) else 1) (a.tmod n).natAbs]
      exact hi
    have hj2 : j < (List.replicate n.toNat (a.tdiv n)).length := by
      rw [← bump_length (if a < 0 then (-1 : Int) else 1) (a.tmod n).natAbs]
      exact hj
    rw [bump_get _ _ _ _ hi hi2, bump_get _ _ _ _ hj hj2,
      List.get_replicate, List.get_replicate]
    by_cases hia : i < (a.tmod n).natAbs <;>
      by_cases hja : j < (a.tmod n).natAbs <;>
        by_cases has : a < 0 <;>
          simp [hia, hja, has]

/-- **C10**.  Leftover-loop safety: for `n > 0` the remainder satisfies
`|a mod n| < n`, and for a valid ratio list with positive ratio sum the
leftover `|a - sum(raw shares)|` is strictly below the number of
ratios; hence the distribution loops of `Split` and `Allocate` only
index existing shares and both functions return a result (`some`)
rather than the out-of-bounds `none`. -/
theorem leftover_loop_safety :
    (∀ (a n : Int), 0 < n →
      (a.tmod n).natAbs < n.toNat ∧ ∃ ms, SplitAmounts a n = some ms)
    ∧ (∀ (a : Int) (rs : List Int), rs ≠ [] → (∀ r ∈ rs, 0 ≤ r) → 0 < ratioSum rs →
        (a - (rawShares a rs).sum).natAbs < rs.length
          ∧ ∃ ms, AllocateAmounts a rs = some ms) := by
  constructor
  · intro a n hn
    constructor
    · have hlt := natAbs_tmod_lt a (b := n) (by omega)
      omega
    · exact ⟨_, splitAmounts_eq a hn⟩
  · intro a rs hne hnn hS
    exact ⟨leftover_lt a rs hne hnn hS, _, allocate_eq_of_pos a rs hne hnn hS⟩

/-! ## Witnesses for the split/allocate theorems -/

/-- Witness for `conservation_split_allocate` at concrete inputs. -/
theorem conservation_split_allocate_witness :
    ((0 : Int) < 3 ∧ ∃ ms, SplitAmounts 7 3 = some ms ∧ ms.sum = 7)
    ∧ (∃ ms, AllocateAmounts 5 [3, 2] = some ms ∧ ms.sum = 5)
    ∧ AllocateAmounts 9 [0, 0, 0] = some (List.replicate 3 0) :=
  ⟨⟨by decide, conservation_split_allocate.1 7 3 (by decide)⟩,
   conservation_split_allocate.2.1 5 [3, 2] (by decide) (by decide) (by decide),
   conservation_split_allocate.2.2 9 [0, 0, 0] (by decide) (by decide)⟩

/-- Witness for `split_fairness` at `a = 7`, `n = 3`. -/
theorem split_fairness_witness :
    ∃ ms, SplitAmounts 7 3 = some ms ∧
      ms.length = (3 : Int).toNat ∧
      (∀ (i : Nat) (h : i < ms.length),
        ms.get ⟨i, h⟩ = (7 : Int).tdiv 3
          + (if i < ((7 : Int).tmod 3).natAbs then (if (7 : Int) < 0 then (-1 : Int) else 1)
              else 0)) ∧
      (∀ (i j : Nat) (hi : i < ms.length) (hj : j < ms.length),
        (ms.get ⟨i, hi⟩ - ms.get ⟨j, hj⟩).natAbs ≤ 1) :=
  split_fairness.1 7 3 (by decide)

/-- Witness for `leftover_loop_safety` at concrete inputs. -/
theorem leftover_loop_safety_witness :
    (((7 : Int).tmod 3).natAbs < (3 : Int).toNat ∧ ∃ ms, SplitAmounts 7 3 = some ms)
    ∧ (((5 : Int) - (rawShares 5 [3, 2]).sum).natAbs < ([3, 2] : List Int).length
        ∧ ∃ ms, AllocateAmounts 5 [3, 2] = some ms) :=
  ⟨leftover_loop_safety.1 7 3 (by decide),
   leftover_loop_safety.2 5 [3, 2] (by decide) (by decide) (by decide)⟩

/-! ## Rounding: nearest multiple, ties away from zero -/

theorem round_core (A E : Int) (hA : 0 ≤ A) (hE : 0 < E) :
    E ∣ ((if E ≤ 2 * (A % E) then A + E else A) / E * E)
    ∧ 0 ≤ (if E ≤ 2 * (A % E) then A + E else A) / E * E
    ∧ 2 * (A - (if E ≤ 2 * (A % E) then A + E else A) / E * E).natAbs ≤ E.natAbs
    ∧ (2 * (A - (if E ≤ 2 * (A % E) then A + E else A) / E * E).natAbs = E.natAbs
        → A < (if E ≤ 2 * (A % E) then A + E else A) / E * E) := by
  have hm0 : 0 ≤ A % E := Int.emod_nonneg A (by omega)
  have hmE : A % E < E := Int.emod_lt_of_pos A hE
  by_cases hb : E ≤ 2 * (A % E)
  · rw [if_pos hb]
    have h3 : (A + E) % E = A % E := by
      have := Int.add_mul_emod_self (a := A) (b := 1) (c := E)
      rwa [one_mul] at this
    have h2 := Int.ediv_add_emod (A + E) E
    rw [h3] at h2
    have hres : (A + E) / E * E = A + E - A % E := by
      rw [mul_comm]
      linarith
    refine ⟨dvd_mul_left E _, ?_, ?_, ?_⟩
    · exact mul_nonneg (Int.ediv_nonneg (by omega) (le_of_lt hE)) (le_of_lt hE)
    · rw [hres]; omega
    · rw [hres]; intro _; omega
  · rw [if_neg hb]
    have h2 := Int.ediv_add_emod A E
    have hres : A / E * E = A - A % E := by
      rw [mul_comm]
      linarith
    refine ⟨dvd_mul_left E _, ?_, ?_, ?_⟩
    · exact mul_nonneg (Int.ediv_nonneg hA (le_of_lt hE)) (le_of_lt hE)
    · rw [hres]; omega
    · rw [hres]; intro htie; omega

/-- **C3**.  Rounding: for every amount `a` and every `e ≥ 0`,
`round(a, e)` is a multiple of `10 ^ e` whose distance to `a` is at
most half of `10 ^ e`, and at the exact half-way tie the chosen
multiple is the one of larger magnitude (away from zero); together with
the concrete values `round(125,2) = 100`, `round(175,2) = 200`,
`round(349,2) = 300`, `round(351,2) = 400`, `round(-75,2) = -100`,
`round(0,2) = 0`, `round(-1,2) = 0`. -/
theorem round_nearest_ties_away :
    (∀ (a : Int) (e : Nat),
      ((10 : Int) ^ e ∣ round a e)
      ∧ 2 * (a - round a e).natAbs ≤ 10 ^ e
      ∧ (2 * (a - round a e).natAbs = 10 ^ e → a.natAbs < (round a e).natAbs))
    ∧ round 125 2 = 100 ∧ round 175 2 = 200 ∧ round 349 2 = 300
    ∧ round 351 2 = 400 ∧ round (-75) 2 = -100 ∧ round 0 2 = 0
    ∧ round (-1) 2 = 0 := by
  refine ⟨?_, by decide, by decide, by decide, by decide, by decide, by decide, by decide⟩
  intro a e
  have hE : (0 : Int) < (10 : Int) ^ e := pow_pos (by norm_num) e
  have hEabs : ((10 : Int) ^ e).natAbs = 10 ^ e := by
    rw [Int.natAbs_pow]
    rfl
  by_cases ha : a = 0
  · subst ha
    have h0 : round 0 e = 0 := by simp [round]
    rw [h0]
    have h10 : 0 < (10 : Nat) ^ e := pow_pos (by norm_num) e
    refine ⟨dvd_zero _, by simp, ?_⟩
    · intro htie
      exfalso
      simp at htie
      omega
  · have hcore := round_core ((a.natAbs : Int)) ((10 : Int) ^ e) (by omega) hE
    obtain ⟨hdvd, hres0, hdist, htie⟩ := hcore
    by_cases hneg : a < 0
    · have hr : round a e =
          -((if (10 : Int) ^ e ≤ 2 * ((a.natAbs : Int) % (10 : Int) ^ e)
              then (a.natAbs : Int) + (10 : Int) ^ e
              else (a.natAbs : Int)) / (10 : Int) ^ e * (10 : Int) ^ e) := by
        simp only [round, if_neg ha, if_pos hneg]
      rw [hr]
      refine ⟨(dvd_neg).mpr hdvd, ?_, ?_⟩
      · rw [← hEabs]
        omega
      · intro hd
        rw [← hEabs] at hd
        have := htie (by omega)
        omega
    · have hr : round a e =
          (if (10 : Int) ^ e ≤ 2 * ((a.natAbs : Int) % (10 : Int) ^ e)
              then (a.natAbs : Int) + (10 : Int) ^ e
              else (a.natAbs : Int)) / (10 : Int) ^ e * (10 : Int) ^ e := by
        simp only [round, if_neg ha, if_neg hneg]
      rw [hr]
      refine ⟨hdvd, ?_, ?_⟩
      · rw [← hEabs]
        omega
      · intro hd
        rw [← hEabs] at hd
        have := htie (by omega)
        omega

/-- Witness for `round_nearest_ties_away`, exercising the tie clause at
the exact half boundary `a = 150`, `e = 2`: the distance is exactly
half of `100` and the rounded value `200` has larger magnitude. -/
theorem round_nearest_ties_away_witness :
    2 * ((150 : Int) - round 150 2).natAbs = 10 ^ 2
    ∧ (150 : Int).natAbs < (round 150 2).natAbs :=
  ⟨by decide, (round_nearest_ties_away.1 150 2).2.2 (by decide)⟩

/-! ## Currency safety and currency preservation -/

/-- **C7**.  Currency safety: every binary operation on two `Money`
values with different currency codes returns the currency-mismatch
error (`Compare` additionally returning the meaningless receiver amount
in its numeric slot), and no such error occurs for same-code operands —
currencies are never silently coerced. -/
theorem currency_safety :
    ∀ (m om : Money),
      (m.currency.code ≠ om.currency.code →
        m.Equals om = .error .currencyMismatch
        ∧ m.GreaterThan om = .error .currencyMismatch
        ∧ m.GreaterThanOrEqual om = .error .currencyMismatch
        ∧ m.LessThan om = .error .currencyMismatch
        ∧ m.LessThanOrEqual om = .error .currencyMismatch
        ∧ m.Compare om = (m.amount, some .currencyMismatch)
        ∧ m.Add om = .error .currencyMismatch
        ∧ m.Subtract om = .error .currencyMismatch)
      ∧ (m.currency.code = om.currency.code →
        (∃ b, m.Equals om = .ok b)
        ∧ (∃ b, m.GreaterThan om = .ok b)
        ∧ (∃ b, m.GreaterThanOrEqual om = .ok b)
        ∧ (∃ b, m.LessThan om = .ok b)
        ∧ (∃ b, m.LessThanOrEqual om = .ok b)
        ∧ m.Compare om = (m.compareAmt om, none)
        ∧ (∃ r, m.Add om = .ok r)
        ∧ (∃ r, m.Subtract om = .ok r)) := by
  intro m om
  constructor
  · intro hne
    have hsc : m.SameCurrency om = false := by
      rw [Money.SameCurrency]
      exact beq_eq_false_iff_ne.mpr hne
    simp [Money.Equals, Money.GreaterThan, Money.GreaterThanOrEqual, Money.LessThan,
      Money.LessThanOrEqual, Money.Compare, Money.Add, Money.Subtract, hsc]
  · intro heq
    have hsc : m.SameCurrency om = true := by
      rw [Money.SameCurrency]
      exact beq_iff_eq.mpr heq
    refine ⟨⟨decide (m.compareAmt om = 0), ?_⟩, ⟨decide (m.compareAmt om = 1), ?_⟩,
      ⟨decide (0 ≤ m.compareAmt om), ?_⟩, ⟨decide (m.compareAmt om = -1), ?_⟩,
      ⟨decide (m.compareAmt om ≤ 0), ?_⟩, ?_,
      ⟨⟨add m.amount om.amount, m.currency⟩, ?_⟩,
      ⟨⟨subtract m.amount om.amount, m.currency⟩, ?_⟩⟩ <;>
      simp [Money.Equals, Money.GreaterThan, Money.GreaterThanOrEqual, Money.LessThan,
        Money.LessThanOrEqual, Money.Compare, Money.Add, Money.Subtract, hsc]

/-- Witness for `currency_safety`: a euro/dollar pair produces the
mismatch error on every operation, a euro/euro pair never does. -/
theorem currency_safety_witness :
    (Money.Equals ⟨1, ⟨"EUR", 2, '.'⟩⟩ ⟨2, ⟨"USD", 2, '.'⟩⟩ = .error .currencyMismatch
      ∧ Money.GreaterThan ⟨1, ⟨"EUR", 2, '.'⟩⟩ ⟨2, ⟨"USD", 2, '.'⟩⟩ = .error .currencyMismatch
      ∧ Money.GreaterThanOrEqual ⟨1, ⟨"EUR", 2, '.'⟩⟩ ⟨2, ⟨"USD", 2, '.'⟩⟩
          = .error .currencyMismatch
      ∧ Money.LessThan ⟨1, ⟨"EUR", 2, '.'⟩⟩ ⟨2, ⟨"USD", 2, '.'⟩⟩ = .error .currencyMismatch
      ∧ Money.LessThanOrEqual ⟨1, ⟨"EUR", 2, '.'⟩⟩ ⟨2, ⟨"USD", 2, '.'⟩⟩
          = .error .currencyMismatch
      ∧ Money.Compare ⟨1, ⟨"EUR", 2, '.'⟩⟩ ⟨2, ⟨"USD", 2, '.'⟩⟩ = (1, some .currencyMismatch)
      ∧ Money.Add ⟨1, ⟨"EUR", 2, '.'⟩⟩ ⟨2, ⟨"USD", 2, '.'⟩⟩ = .error .currencyMismatch
      ∧ Money.Subtract ⟨1, ⟨"EUR", 2, '.'⟩⟩ ⟨2, ⟨"USD", 2, '.'⟩⟩ = .error .currencyMismatch)
    ∧ ((∃ b, Money.Equals ⟨1, ⟨"EUR", 2, '.'⟩⟩ ⟨2, ⟨"EUR", 2, '.'⟩⟩ = .ok b)
      ∧ (∃ b, Money.GreaterThan ⟨1, ⟨"EUR", 2, '.'⟩⟩ ⟨2, ⟨"EUR", 2, '.'⟩⟩ = .ok b)
      ∧ (∃ b, Money.GreaterThanOrEqual ⟨1, ⟨"EUR", 2, '.'⟩⟩ ⟨2, ⟨"EUR", 2, '.'⟩⟩ = .ok b)
      ∧ (∃ b, Money.LessThan ⟨1, ⟨"EUR", 2, '.'⟩⟩ ⟨2, ⟨"EUR", 2, '.'⟩⟩ = .ok b)
      ∧ (∃ b, Money.LessThanOrEqual ⟨1, ⟨"EUR", 2, '.'⟩⟩ ⟨2, ⟨"EUR", 2, '.'⟩⟩ = .ok b)
      ∧ Money.Compare ⟨1, ⟨"EUR", 2, '.'⟩⟩ ⟨2, ⟨"EUR", 2, '.'⟩⟩
          = (Money.compareAmt ⟨1, ⟨"EUR", 2, '.'⟩⟩ ⟨2, ⟨"EUR", 2, '.'⟩⟩, none)
      ∧ (∃ r, Money.Add ⟨1, ⟨"EUR", 2, '.'⟩⟩ ⟨2, ⟨"EUR", 2, '.'⟩⟩ = .ok r)
      ∧ (∃ r, Money.Subtract ⟨1, ⟨"EUR", 2, '.'⟩⟩ ⟨2, ⟨"EUR", 2, '.'⟩⟩ = .ok r)) :=
  ⟨(currency_safety ⟨1, ⟨"EUR", 2, '.'⟩⟩ ⟨2, ⟨"USD", 2, '.'⟩⟩).1 (by decide),
   (currency_safety ⟨1, ⟨"EUR", 2, '.'⟩⟩ ⟨2, ⟨"EUR", 2, '.'⟩⟩).2 rfl⟩

/-- **C8**.  Immutability and currency preservation: every operation
returns new `Money` value(s) carrying the receiver's currency
(`Split` and `Allocate` stamping it on every share); the receiver
itself is a value that no operation modifies — in this pure model the
operations are functions of the receiver, which therefore stays
unchanged by construction. -/
theorem operations_preserve_currency :
    ∀ (m om : Money) (k n : Int) (rs : List Int),
      (m.Absolute).currency = m.currency
      ∧ (m.Negative).currency = m.currency
      ∧ (m.Multiply k).currency = m.currency
      ∧ (m.Round).currency = m.currency
      ∧ (∀ r, m.Add om = .ok r → r.currency = m.currency)
      ∧ (∀ r, m.Subtract om = .ok r → r.currency = m.currency)
      ∧ (∀ l, m.Split n = some l → ∀ x ∈ l, x.currency = m.currency)
      ∧ (∀ l, m.Allocate rs = some l → ∀ x ∈ l, x.currency = m.currency) := by
  intro m om k n rs
  refine ⟨rfl, rfl, rfl, rfl, ?_, ?_, ?_, ?_⟩
  · intro r hr
    rw [Money.Add] at hr
    by_cases hsc : m.SameCurrency om
    · rw [if_pos hsc] at hr
      cases hr
      rfl
    · rw [if_neg hsc] at hr
      cases hr
  · intro r hr
    rw [Money.Subtract] at hr
    by_cases hsc : m.SameCurrency om
    · rw [if_pos hsc] at hr
      cases hr
      rfl
    · rw [if_neg hsc] at hr
      cases hr
  · intro l hl x hx
    rw [Money.Split] at hl
    rcases Option.map_eq_some'.mp hl with ⟨amts, _, hmap⟩
    rw [← hmap] at hx
    rcases List.mem_map.mp hx with ⟨a, _, hax⟩
    rw [← hax]
  · intro l hl x hx
    rw [Money.Allocate] at hl
    rcases Option.map_eq_some'.mp hl with ⟨amts, _, hmap⟩
    rw [← hmap] at hx
    rcases List.mem_map.mp hx with ⟨a, _, hax⟩
    rw [← hax]

/-- Witness for `operations_preserve_currency`: a concrete euro
addition and a concrete three-way euro split yield shares carrying the
receiver's currency. -/
theorem operations_preserve_currency_witness :
    (Money.mk 12 ⟨"EUR", 2, '.'⟩).currency = (Money.mk 5 ⟨"EUR", 2, '.'⟩).currency
    ∧ ∀ x ∈ [Money.mk 2 ⟨"EUR", 2, '.'⟩, Money.mk 2 ⟨"EUR", 2, '.'⟩,
        Money.mk 1 ⟨"EUR", 2, '.'⟩],
      x.currency = (Money.mk 5 ⟨"EUR", 2, '.'⟩).currency :=
  ⟨(operations_preserve_currency ⟨5, ⟨"EUR", 2, '.'⟩⟩ ⟨7, ⟨"EUR", 2, '.'⟩⟩ 0 3 []).2.2.2.2.1
      ⟨12, ⟨"EUR", 2, '.'⟩⟩ rfl,
   (operations_preserve_currency ⟨5, ⟨"EUR", 2, '.'⟩⟩ ⟨7, ⟨"EUR", 2, '.'⟩⟩ 0 3 []).2.2.2.2.2.2.1
      [⟨2, ⟨"EUR", 2, '.'⟩⟩, ⟨2, ⟨"EUR", 2, '.'⟩⟩, ⟨1, ⟨"EUR", 2, '.'⟩⟩] rfl⟩

/-! ## Lemmas on digit strings and the integer parser -/

theorem parseDigits_of_valid (l : List Char) (hne : l ≠ [])
    (hall : l.all isDigitCh = true) : parseDigits l = some (digitsVal l) := by
  rw [parseDigits, if_neg (by simpa using hne), if_pos hall]

theorem all_digits_false_of_mem {l : List Char} {c : Char} (hmem : c ∈ l)
    (hc : isDigitCh c = false) : l.all isDigitCh = false := by
  cases h : l.all isDigitCh with
  | false => rfl
  | true =>
    have h2 := List.all_eq_true.mp h c hmem
    rw [hc] at h2
    cases h2

theorem parseIntStr_eq_spec (l : List Char) :
    parseIntStr l = if isValidSignedInt l then some (signedVal l) else none := by
  cases l with
  | nil => rfl
  | cons c rest =>
    by_cases hm : c = '-'
    · subst hm
      simp only [parseIntStr, isValidSignedInt, signedVal, if_pos rfl,
        if_pos (Or.inl rfl), parseDigits]
      by_cases he : rest.isEmpty <;> by_cases ha : rest.all isDigitCh <;>
        simp [he, ha]
    · by_cases hp : c = '+'
      · subst hp
        simp only [parseIntStr, isValidSignedInt, signedVal, if_neg (by decide : ¬ '+' = '-'),
          if_pos rfl, if_pos (Or.inr rfl), parseDigits]
        by_cases he : rest.isEmpty <;> by_cases ha : rest.all isDigitCh <;>
          simp [he, ha]
      · simp only [parseIntStr, isValidSignedInt, signedVal, if_neg hm, if_neg hp,
          if_neg (by simp [hm, hp] : ¬ (c = '-' ∨ c = '+')), parseDigits]
        by_cases ha : (c :: rest).all isDigitCh <;> simp [ha]

theorem isValidSignedInt_false_of_bad {l : List Char} {c : Char}
    (hc : isDigitCh c = false) (hm : c ≠ '-') (hp : c ≠ '+') (hmem : c ∈ l) :
    isValidSignedInt l = false := by
  cases l with
  | nil => rfl
  | cons x rest =>
    rw [isValidSignedInt]
    by_cases hx : x = '-' ∨ x = '+'
    · rw [if_pos hx]
      have hcr : c ∈ rest := by
        rcases List.mem_cons.mp hmem with h1 | h1
        · exfalso
          rcases hx with h2 | h2 <;> rw [h2] at h1
          · exact hm h1
          · exact hp h1
        · exact h1
      have hall : rest.all isDigitCh = false := all_digits_false_of_mem hcr hc
      rw [hall]
      simp
    · rw [if_neg hx]
      exact all_digits_false_of_mem hmem hc

theorem parseIntStr_none_of_bad {l : List Char} {c : Char}
    (hc : isDigitCh c = false) (hm : c ≠ '-') (hp : c ≠ '+') (hmem : c ∈ l) :
    parseIntStr l = none := by
  rw [parseIntStr_eq_spec, isValidSignedInt_false_of_bad hc hm hp hmem]
  rfl

theorem firstIdx_of_not_mem {c : Char} : ∀ {l : List Char}, c ∉ l → firstIdx c l = none := by
  intro l
  induction l with
  | nil => intro _; rfl
  | cons x xs ih =>
    intro h
    rw [firstIdx, if_neg (fun hxc => by rw [← hxc] at h; exact h (List.mem_cons_self x xs)),
      ih (fun hm => h (List.mem_cons_of_mem x hm))]
    rfl

theorem firstIdx_append (c : Char) (l2 : List Char) :
    ∀ (l1 : List Char), c ∉ l1 → firstIdx c (l1 ++ c :: l2) = some l1.length := by
  intro l1
  induction l1 with
  | nil => intro _; simp [firstIdx]
  | cons x xs ih =>
    intro h
    rw [List.cons_append, firstIdx,
      if_neg (fun hxc => by rw [← hxc] at h; exact h (List.mem_cons_self x xs)),
      ih (fun hm => h (List.mem_cons_of_mem x hm))]
    rfl

theorem not_mem_of_all_digits {l : List Char} {c : Char}
    (hall : l.all isDigitCh = true) (hc : isDigitCh c = false) : c ∉ l := by
  intro hmem
  rw [all_digits_false_of_mem hmem hc] at hall
  cases hall

/-! ## Claim theorems: the parser -/

/-- **C4**.  The parser algorithm: `NewFromString`'s parsing core agrees
everywhere with the spec's description — digits after the (first)
separator are taken as supplied fraction digits, truncated to at most
`fraction` of them, concatenated to the integer part, parsed as a
signed decimal integer, and scaled by `10 ^ (fraction - supplied)`;
with no separator the whole string is the integer part; and parsing
fails exactly when that concatenation is not a valid signed integer. -/
theorem parser_algorithm :
    ∀ (s : List Char) (sep : Char) (fraction : Nat),
      parseAmount s sep fraction = specParse s sep fraction := by
  intro s sep f
  cases hidx : firstIdx sep s with
  | none =>
    simp only [parseAmount, specParse, hidx, parseIntStr_eq_spec]
    by_cases hv : isValidSignedInt s <;> simp [hv]
  | some i =>
    have hlen : (s.drop (i + 1)).length = s.length - i - 1 := by
      rw [List.length_drop]
      omega
    simp only [parseAmount, specParse, hidx, parseIntStr_eq_spec, hlen]
    by_cases hv :
        isValidSignedInt (s.take i ++ (s.drop (i + 1)).take (min (s.length - i - 1) f)) <;>
      simp [hv]

/-- **C5** (amended).  The parser rejects any input whose *consumed*
portion contains a character that is neither a decimal digit nor a
leading sign — a second decimal separator, a grouping separator, a
currency symbol, whitespace; but characters lying beyond the first
`fraction` kept characters after the first separator are silently
discarded by the truncation, so offending characters there do *not*
cause rejection. -/
theorem parse_rejects_nonnumeric_consumed :
    ∀ (s : List Char) (sep c : Char) (fraction : Nat),
      isDigitCh c = false → c ≠ '-' → c ≠ '+' →
      c ∈ consumedPortion s sep fraction →
      parseAmount s sep fraction = none := by
  intro s sep c f hc hm hp hmem
  cases hidx : firstIdx sep s with
  | none =>
    simp only [consumedPortion, hidx] at hmem
    simp only [parseAmount, hidx]
    rw [parseIntStr_none_of_bad hc hm hp hmem]
    rfl
  | some i =>
    simp only [consumedPortion, hidx] at hmem
    simp only [parseAmount, hidx]
    rw [parseIntStr_none_of_bad hc hm hp hmem]
    rfl

/-- **C5**, counterexample to the claim as stated: `"1.23.4"` contains
the separator `'.'` twice, yet with a 2-fraction-digit currency the
parser accepts it and returns `123` — the second separator falls
beyond the truncation window and is silently dropped. -/
theorem parse_double_separator_counterexample :
    List.count '.' "1.23.4".data = 2
    ∧ parseAmount "1.23.4".data '.' 2 = some 123 := by
  constructor
  · decide
  · decide

/-- Witness for `parse_rejects_nonnumeric_consumed`: the grouping comma
of `"1,234.56"` lies in the consumed portion, so the parse fails. -/
theorem parse_rejects_nonnumeric_consumed_witness :
    parseAmount "1,234.56".data '.' 2 = none :=
  parse_rejects_nonnumeric_consumed "1,234.56".data '.' ',' 2
    (by decide) (by decide) (by decide) (by decide)

/-! ## Lemmas on digit rendering -/

theorem digitsVal_foldl_init (l : List Char) :
    ∀ (a : Nat), l.foldl (fun x c => 10 * x + (c.toNat - 48)) a
      = a * 10 ^ l.length + l.foldl (fun x c => 10 * x + (c.toNat - 48)) 0 := by
  induction l with
  | nil => intro a; simp
  | cons c rest ih =>
    intro a
    rw [List.foldl_cons, List.foldl_cons, ih (10 * a + (c.toNat - 48)),
      ih (10 * 0 + (c.toNat - 48)), List.length_cons, pow_succ]
    ring

theorem digitsVal_append (l1 l2 : List Char) :
    digitsVal (l1 ++ l2) = digitsVal l1 * 10 ^ l2.length + digitsVal l2 := by
  rw [digitsVal, digitsVal, digitsVal, List.foldl_append, digitsVal_foldl_init]

theorem digitsVal_zeros (j : Nat) : digitsVal (List.replicate j '0') = 0 := by
  induction j with
  | zero => rfl
  | succ j ih =>
    rw [List.replicate_succ, digitsVal, List.foldl_cons, digitsVal_foldl_init]
    rw [digitsVal] at ih
    rw [ih]
    have h0 : '0'.toNat - 48 = 0 := rfl
    rw [h0]
    simp

theorem padLeft_digitsVal (k : Nat) (l : List Char) :
    digitsVal (padLeft k '0' l) = digitsVal l := by
  rw [padLeft, digitsVal_append, digitsVal_zeros]
  simp

theorem padLeft_length (k : Nat) (c : Char) (l : List Char) :
    (padLeft k c l).length = max k l.length := by
  rw [padLeft, List.length_append, List.length_replicate]
  omega

theorem padLeft_all {k : Nat} {l : List Char} (h : l.all isDigitCh = true) :
    (padLeft k '0' l).all isDigitCh = true := by
  rw [padLeft, List.all_append]
  have hz : (List.replicate (k - l.length) '0').all isDigitCh = true := by
    rw [List.all_eq_true]
    intro x hx
    rw [List.eq_of_mem_replicate hx]
    decide
  rw [hz, h]
  rfl

theorem digitsVal_digitChar : ∀ (d : Nat), d < 10 → digitsVal [digitChar d] = d := by
  decide

theorem isDigitCh_digitChar : ∀ (d : Nat), d < 10 → isDigitCh (digitChar d) = true := by
  decide

theorem digitsRevAux_spec : ∀ (fuel n : Nat), n ≤ fuel →
    digitsVal ((digitsRevAux fuel n).reverse) = n
    ∧ ((digitsRevAux fuel n).reverse).all isDigitCh = true
    ∧ ∀ (k : Nat), n < 10 ^ k → (digitsRevAux fuel n).length ≤ k := by
  intro fuel
  induction fuel with
  | zero =>
    intro n hn
    have hn0 : n = 0 := by omega
    subst hn0
    exact ⟨rfl, rfl, fun k _ => by simp [digitsRevAux]⟩
  | succ fuel ih =>
    intro n hn
    cases n with
    | zero => exact ⟨rfl, rfl, fun k _ => by simp [digitsRevAux]⟩
    | succ m =>
      have hdle : (m + 1) / 10 ≤ fuel := by
        have h2 : (m + 1) / 10 < m + 1 := Nat.div_lt_self (by omega) (by omega)
        omega
      obtain ⟨ihv, iha, ihl⟩ := ih ((m + 1) / 10) hdle
      have hstep : digitsRevAux (fuel + 1) (m + 1)
          = digitChar ((m + 1) % 10) :: digitsRevAux fuel ((m + 1) / 10) := rfl
      have hmlt : (m + 1) % 10 < 10 := Nat.mod_lt _ (by omega)
      refine ⟨?_, ?_, ?_⟩
      · rw [hstep, List.reverse_cons, digitsVal_append, ihv,
          digitsVal_digitChar _ hmlt, List.length_singleton, pow_one]
        omega
      · rw [hstep, List.reverse_cons, List.all_append, iha,
          List.all_cons, isDigitCh_digitChar _ hmlt]
        rfl
      · intro k hk
        cases k with
        | zero => simp at hk
        | succ k =>
          have hdlt : (m + 1) / 10 < 10 ^ k := by
            rw [Nat.div_lt_iff_lt_mul (by omega)]
            rw [pow_succ] at hk
            omega
          have := ihl k hdlt
          rw [hstep, List.length_cons]
          omega

theorem digitsVal_natToDigits (n : Nat) : digitsVal (natToDigits n) = n :=
  (digitsRevAux_spec n n le_rfl).1

theorem natToDigits_all (n : Nat) : (natToDigits n).all isDigitCh = true :=
  (digitsRevAux_spec n n le_rfl).2.1

theorem natToDigits_length_le {n k : Nat} (h : n < 10 ^ k) :
    (natToDigits n).length ≤ k := by
  have := (digitsRevAux_spec n n le_rfl).2.2 k h
  rw [natToDigits, List.length_reverse]
  exact this

theorem groupRev_short (c : Char) : ∀ (l : List Char), l.length ≤ 3 → groupRev c l = l := by
  intro l h
  rcases l with _ | ⟨a, _ | ⟨b, _ | ⟨d, _ | ⟨e, rest⟩⟩⟩⟩
  · rfl
  · rfl
  · rfl
  · rfl
  · simp [List.length_cons] at h

theorem group_eq_self {t : Option Char} {l : List Char}
    (h : t = none ∨ l.length ≤ 3) : group t l = l := by
  cases t with
  | none => rfl
  | some c =>
    rcases h with h | h
    · cases h
    · rw [group, groupRev_short c l.reverse (by rw [List.length_reverse]; exact h),
        List.reverse_reverse]

theorem parseIntStr_digits {l : List Char} (hne : l ≠ []) (hall : l.all isDigitCh = true) :
    parseIntStr l = some ((digitsVal l : Nat) : Int) := by
  cases l with
  | nil => exact absurd rfl hne
  | cons c rest =>
    have hc : isDigitCh c = true := by
      rw [List.all_cons, Bool.and_eq_true] at hall
      exact hall.1
    have hcm : c ≠ '-' := by
      intro h0
      rw [h0] at hc
      exact absurd hc (by decide)
    have hcp : c ≠ '+' := by
      intro h0
      rw [h0] at hc
      exact absurd hc (by decide)
    rw [parseIntStr, if_neg hcm, if_neg hcp, parseDigits_of_valid _ hne hall]
    rfl

theorem parseIntStr_neg_digits {l : List Char} (hne : l ≠ []) (hall : l.all isDigitCh = true) :
    parseIntStr ('-' :: l) = some (-((digitsVal l : Nat) : Int)) := by
  rw [parseIntStr, if_pos rfl, parseDigits_of_valid _ hne hall]
  rfl

/-! ## Claim theorems: format / parse round trip -/

/-- **C6** (amended).  Round trip: parsing the string produced by
`formatAmount` with the same currency parameters recovers the amount
exactly, *provided the rendering contains no thousand grouping* — that
is, when the currency has no thousand separator or the magnitude stays
below `1000 · 10^fraction` so that no separator is inserted.  (The
decimal separator is assumed, as for every registered currency, not to
be a digit or a sign character.) -/
theorem format_parse_roundtrip_nogroup :
    ∀ (a : Int) (f : Nat) (dec : Char) (thou : Option Char) (g t : List Char),
      isDigitCh dec = false → dec ≠ '-' → dec ≠ '+' →
      (thou = none ∨ a.natAbs < 1000 * 10 ^ f) →
      parseAmount (formatAmount ⟨f, dec, thou, g, t⟩ a) dec f = some a := by
  intro a f dec thou g t hdec hm hp hng
  set ds := padLeft (f + 1) '0' (natToDigits a.natAbs) with hds
  have hall : ds.all isDigitCh = true := padLeft_all (natToDigits_all a.natAbs)
  have hval : digitsVal ds = a.natAbs := by
    rw [hds, padLeft_digitsVal, digitsVal_natToDigits]
  have hlenmax : ds.length = max (f + 1) (natToDigits a.natAbs).length :=
    padLeft_length _ _ _
  have hlen1 : f + 1 ≤ ds.length := by
    rw [hlenmax]
    omega
  have hne : ds ≠ [] := by
    intro h0
    rw [h0] at hlen1
    simp at hlen1
  have hint3 : thou = none ∨ ds.length - f ≤ 3 := by
    rcases hng with h | h
    · exact Or.inl h
    · right
      have h1000 : 1000 * 10 ^ f = 10 ^ (f + 3) := by
        rw [pow_add]
        ring
      have hdl : (natToDigits a.natAbs).length ≤ f + 3 :=
        natToDigits_length_le (by rw [← h1000]; exact h)
      rw [hlenmax]
      omega
  have hdsparse : parseIntStr ds = some ((a.natAbs : Int)) := by
    rw [parseIntStr_digits hne hall, hval]
  have hnegparse : parseIntStr ('-' :: ds) = some (-(a.natAbs : Int)) := by
    rw [parseIntStr_neg_digits hne hall, hval]
  rcases Nat.eq_zero_or_pos f with hf0 | hfpos
  · subst hf0
    have hnum : numericRender ⟨0, dec, thou, g, t⟩ a.natAbs = ds := by
      simp only [numericRender, if_pos rfl, ← hds]
      exact group_eq_self (by
        rcases hint3 with h | h
        · exact Or.inl h
        · right
          omega)
    by_cases hneg : a < 0
    · have hs : formatAmount ⟨0, dec, thou, g, t⟩ a = '-' :: ds := by
        rw [formatAmount, hnum, if_pos hneg]
        rfl
      have hni : firstIdx dec ('-' :: ds) = none := by
        apply firstIdx_of_not_mem
        intro hmem
        rcases List.mem_cons.mp hmem with h1 | h1
        · exact hm h1
        · exact not_mem_of_all_digits hall hdec h1
      rw [hs]
      simp only [parseAmount, hni, hnegparse, Option.map_some', pow_zero, mul_one]
      congr 1
      omega
    · have hs : formatAmount ⟨0, dec, thou, g, t⟩ a = ds := by
        rw [formatAmount, hnum, if_neg hneg]
        rfl
      have hni : firstIdx dec ds = none :=
        firstIdx_of_not_mem (not_mem_of_all_digits hall hdec)
      rw [hs]
      simp only [parseAmount, hni, hdsparse, Option.map_some', pow_zero, mul_one]
      congr 1
      omega
  · have hiplen : (ds.take (ds.length - f)).length = ds.length - f := by
      rw [List.length_take]
      omega
    have hfplen : (ds.drop (ds.length - f)).length = f := by
      rw [List.length_drop]
      omega
    have hipall : (ds.take (ds.length - f)).all isDigitCh = true := by
      rw [List.all_eq_true] at hall ⊢
      intro x hx
      exact hall x (List.mem_of_mem_take hx)
    have hipnot : dec ∉ ds.take (ds.length - f) := not_mem_of_all_digits hipall hdec
    have hnum : numericRender ⟨f, dec, thou, g, t⟩ a.natAbs
        = ds.take (ds.length - f) ++ dec :: ds.drop (ds.length - f) := by
      simp only [numericRender, if_neg (by omega : ¬ f = 0), ← hds]
      congr 1
      exact group_eq_self (by
        rcases hint3 with h | h
        · exact Or.inl h
        · right
          rw [List.length_take]
          omega)
    by_cases hneg : a < 0
    · have hs : formatAmount ⟨f, dec, thou, g, t⟩ a
          = ('-' :: ds.take (ds.length - f)) ++ dec :: ds.drop (ds.length - f) := by
        rw [formatAmount, hnum, if_pos hneg]
        rfl
      have hprenot : dec ∉ '-' :: ds.take (ds.length - f) := by
        intro hmem
        rcases List.mem_cons.mp hmem with h1 | h1
        · exact hm h1
        · exact hipnot h1
      have hidx : firstIdx dec
          (('-' :: ds.take (ds.length - f)) ++ dec :: ds.drop (ds.length - f))
          = some ('-' :: ds.take (ds.length - f)).length :=
        firstIdx_append dec _ _ hprenot
      have hplen : ('-' :: ds.take (ds.length - f)).length = (ds.length - f) + 1 := by
        rw [List.length_cons, hiplen]
      have hslen : (('-' :: ds.take (ds.length - f)) ++ dec :: ds.drop (ds.length - f)).length
          = (ds.length - f) + 2 + f := by
        simp only [List.length_append, List.length_cons, hfplen, hiplen]
        omega
      rw [hs]
      simp only [parseAmount, hidx, hslen, hplen]
      have hmin : (ds.length - f + 2 + f) - ((ds.length - f) + 1) - 1 = f := by omega
      rw [hmin, min_self, List.take_left' hplen]
      rw [List.append_cons ('-' :: ds.take (ds.length - f)) dec (ds.drop (ds.length - f))]
      rw [List.drop_left' (by rw [List.length_append, hplen]; simp)]
      rw [List.take_of_length_le (le_of_eq hfplen)]
      rw [List.cons_append, List.take_append_drop, hnegparse]
      simp only [Option.map_some', Nat.sub_self, pow_zero, mul_one]
      congr 1
      omega
    · have hs : formatAmount ⟨f, dec, thou, g, t⟩ a
          = ds.take (ds.length - f) ++ dec :: ds.drop (ds.length - f) := by
        rw [formatAmount, hnum, if_neg hneg]
        rfl
      have hidx : firstIdx dec
          (ds.take (ds.length - f) ++ dec :: ds.drop (ds.length - f))
          = some (ds.take (ds.length - f)).length :=
        firstIdx_append dec _ _ hipnot
      have hslen : (ds.take (ds.length - f) ++ dec :: ds.drop (ds.length - f)).length
          = (ds.length - f) + 1 + f := by
        simp only [List.length_append, List.length_cons, hfplen, hiplen]
        omega
      rw [hs]
      simp only [parseAmount, hidx, hslen, hiplen]
      have hmin : (ds.length - f + 1 + f) - (ds.length - f) - 1 = f := by omega
      rw [hmin, min_self, List.take_left' hiplen]
      rw [List.append_cons (ds.take (ds.length - f)) dec (ds.drop (ds.length - f))]
      rw [List.drop_left' (by rw [List.length_append, hiplen]; simp)]
      rw [List.take_of_length_le (le_of_eq hfplen)]
      rw [List.take_append_drop, hdsparse]
      simp only [Option.map_some', Nat.sub_self, pow_zero, mul_one]
      congr 1
      omega

/-- **C6**, counterexample to the claim as stated: with a grouping
currency shape (fraction 2, decimal `'.'`, thousand `','`) the amount
`123456` renders as `"1,234.56"`, and parsing that string back fails —
the grouping comma is not accepted by the parser, so the unrestricted
round trip is false. -/
theorem roundtrip_grouping_counterexample :
    formatAmount ⟨2, '.', some ',', [], []⟩ 123456 = "1,234.56".data
    ∧ parseAmount "1,234.56".data '.' 2 = none := by
  constructor
  · decide
  · decide

/-- Witness for `format_parse_roundtrip_nogroup` at `a = -101` with the
grouping currency shape: the magnitude is below `1000 · 10^2`, so no
separator is inserted and the round trip recovers `-101`. -/
theorem format_parse_roundtrip_nogroup_witness :
    parseAmount (formatAmount ⟨2, '.', some ',', [], []⟩ (-101)) '.' 2 = some (-101) :=
  format_parse_roundtrip_nogroup (-101) 2 '.' (some ',') [] []
    (by decide) (by decide) (by decide) (Or.inr (by decide))

/-! ## Claim theorems: JSON decoding -/

/-- **C9**.  JSON decode: a payload whose `amount` or `currency` field
is present but not a JSON string fails with the invalid-JSON error,
whatever the registry contains; a payload with both fields missing
decodes to the currency-less zero `Money` rather than an error. -/
theorem json_decode_field_types :
    ∀ (lookup : String → Option CurrencyRec) (af cf : Option JsonValue),
      (∀ v, af = some v → (∀ s, v ≠ .jstr s) →
        unmarshalJSON lookup af cf = .error .invalidJSON)
      ∧ (∀ v, cf = some v → (∀ s, v ≠ .jstr s) →
        unmarshalJSON lookup af cf = .error .invalidJSON)
      ∧ (af = none → cf = none →
        unmarshalJSON lookup af cf = .ok { amount := 0, currency := emptyCurrency }) := by
  intro lookup af cf
  refine ⟨?_, ?_, ?_⟩
  · intro v hv hns
    subst hv
    cases v with
    | jstr s => exact absurd rfl (hns s)
    | jnum q => rfl
    | jbool b => rfl
    | jnull => rfl
  · intro v hv hns
    subst hv
    cases v with
    | jstr s => exact absurd rfl (hns s)
    | jnum q =>
      cases af with
      | none => rfl
      | some w => cases w <;> rfl
    | jbool b =>
      cases af with
      | none => rfl
      | some w => cases w <;> rfl
    | jnull =>
      cases af with
      | none => rfl
      | some w => cases w <;> rfl
  · intro ha hc
    subst ha
    subst hc
    rfl

/-- Witness for `json_decode_field_types`: a numeric `amount` field and
a boolean `currency` field are rejected, the empty payload decodes to
the zero `Money`. -/
theorem json_decode_field_types_witness :
    unmarshalJSON (fun _ => none) (some (.jnum 3)) none = .error .invalidJSON
    ∧ unmarshalJSON (fun _ => none) none (some (.jbool true)) = .error .invalidJSON
    ∧ unmarshalJSON (fun _ => none) none none
        = .ok { amount := 0, currency := emptyCurrency } :=
  ⟨(json_decode_field_types (fun _ => none) (some (.jnum 3)) none).1 (.jnum 3) rfl
      (fun s h => nomatch h),
   (json_decode_field_types (fun _ => none) none (some (.jbool true))).2.1 (.jbool true) rfl
      (fun s h => nomatch h),
   (json_decode_field_types (fun _ => none) none none).2.2 rfl rfl⟩

end GoMoney
